import Mathlib

/-!
Verification of the vacancy-statistics pipeline
(`Daniil-Obukhov-at-36-3.2.3.py`).

The development shallowly embeds the statistics core of the script:
`Salary` (compensation model with the fixed currency table),
`DataSet.process_vacancies` (row validation and normalization),
`Statistic.convert_to_param_salary` (grouping by year),
`Statistic.__add_missing_years` (gap filling),
`Statistic.__convert_from_param_salary_to_dict` (plain mappings) and the
merge loop of `__main__`.

Modelling conventions:
* Python floats are modelled as `Rat`; the numeric literals of the source
  (for example the currency rates) are exact decimal fractions.
* Python `int(...)` applied to a float is truncation toward zero (`pyInt`).
* Python dictionaries are modelled as association lists with unique keys,
  built by `dictInsert` (update in place, append if new) which is the
  observable behaviour of insertion-ordered CPython dicts.
* Code that can raise (`KeyError`, `ValueError`, `IndexError`) is modelled
  in `Option`, `none` standing for the propagated exception.
* Publication years: the source stores `published_at[:4]` as a string and
  converts it with `int()` at every use site; the embedding stores the
  parsed integer (`pyIntOfString?` at record construction), which agrees
  with the source on all 4-digit year strings.
-/

namespace VacancyStats

/-- Truncation toward zero of a rational, the behaviour of Python `int()`
on a float. -/
def pyInt (q : Rat) : Int := if q < 0 then -((-q).floor) else q.floor

/-- Digit value of a character, `none` for non-digits. -/
def digitVal (c : Char) : Option Nat :=
  if '0' ≤ c ∧ c ≤ '9' then some (c.toNat - '0'.toNat) else none

/-- Accumulating decimal parser over a digit list. -/
def parseDigitsAux : List Char → Nat → Option Nat
  | [], acc => some acc
  | c :: cs, acc =>
    match digitVal c with
    | some d => parseDigitsAux cs (acc * 10 + d)
    | none => none

/-- Parse a nonempty all-digit character list as a natural number. -/
def parseDigits (l : List Char) : Option Nat :=
  if l.isEmpty then none else parseDigitsAux l 0

/-- Split a character list on a separator character. -/
def splitOnChar (sep : Char) : List Char → List (List Char)
  | [] => [[]]
  | c :: cs =>
    let r := splitOnChar sep cs
    if c = sep then [] :: r
    else
      match r with
      | [] => [[c]]
      | h :: t => (c :: h) :: t

/-- Core of the float parser: digits with an optional fractional part. -/
def pyFloatCore (l : List Char) : Option Rat :=
  match splitOnChar '.' l with
  | [intPart] => (parseDigits intPart).map (fun n => (n : Rat))
  | [intPart, fracPart] =>
    match parseDigits intPart, parseDigits fracPart with
    | some n, some fr => some ((n : Rat) + (fr : Rat) / ((10 : Rat) ^ fracPart.length))
    | _, _ => none
  | _ => none

/-- Model of Python `float(s)` on the decimal forms used by the data files:
an optional minus sign, digits, and an optional fractional part.
`none` models the propagated `ValueError`. -/
def pyFloatOfString? (s : String) : Option Rat :=
  match s.data with
  | '-' :: rest => (pyFloatCore rest).map Neg.neg
  | l => pyFloatCore l

/-- Model of Python `int(s)` on a decimal string: an optional minus sign
followed by digits. `none` models the propagated `ValueError`. -/
def pyIntOfString? (s : String) : Option Int :=
  match s.data with
  | '-' :: rest => (parseDigits rest).map (fun n => -(n : Int))
  | l => (parseDigits l).map (fun n => (n : Int))

/-- The whitespace characters recognised by Python `str.split()` on the
ASCII range (space, tab, newline, carriage return, vertical tab, form
feed). -/
def isPySpace (c : Char) : Bool :=
  c == ' ' || c == '\t' || c == '\n' || c == '\r' ||
    c == Char.ofNat 11 || c == Char.ofNat 12

/-- Model of `re.sub("<.*?>", "", value)`: scanning state machine.  The
first component is the buffered candidate tag (reversed, starting at an
unmatched `<`), `none` when not inside a candidate.  Python `.` does not
match a newline, so a buffered candidate is flushed unchanged when a
newline arrives before the closing `>`; every `<` inside the flushed
buffer also fails to match for the same reason, so flushing verbatim is
exactly the regex behaviour. -/
def removeTagsAux : Option (List Char) → List Char → List Char
  | none, [] => []
  | some buf, [] => buf.reverse
  | none, c :: cs =>
    if c = '<' then removeTagsAux (some [c]) cs
    else c :: removeTagsAux none cs
  | some buf, c :: cs =>
    if c = '>' then removeTagsAux none cs
    else if c = '\n' then buf.reverse ++ '\n' :: removeTagsAux none cs
    else removeTagsAux (some (c :: buf)) cs

/-- Removal of HTML-tag-like substrings, `re.sub("<.*?>", "", value)`. -/
def removeTags (l : List Char) : List Char := removeTagsAux none l

/-- Model of `.replace('\n', '; ')`. -/
def replaceNewline : List Char → List Char
  | [] => []
  | c :: cs =>
    if c = '\n' then ';' :: ' ' :: replaceNewline cs
    else c :: replaceNewline cs

/-- Accumulating worker for `str.split()`; `cur` is the current token,
reversed. -/
def pySplitAux (cur : List Char) : List Char → List (List Char)
  | [] => if cur.isEmpty then [] else [cur.reverse]
  | c :: cs =>
    if isPySpace c then
      if cur.isEmpty then pySplitAux [] cs
      else cur.reverse :: pySplitAux [] cs
    else pySplitAux (c :: cur) cs

/-- Model of Python `str.split()` with no argument: split on whitespace
runs, dropping empty tokens. -/
def pySplit (l : List Char) : List (List Char) := pySplitAux [] l

/-- Model of `" ".join(tokens)`. -/
def joinSpace : List (List Char) → List Char
  | [] => []
  | [t] => t
  | t :: ts => t ++ ' ' :: joinSpace ts

/-- Field normalization of `process_vacancies`:
`" ".join(re.sub("<.*?>", "", value).replace('\n', '; ').split())`. -/
def normalizeField (l : List Char) : List Char :=
  joinSpace (pySplit (replaceNewline (removeTags l)))

/-- String-level wrapper of `normalizeField`. -/
def normalizeStr (s : String) : String := String.mk (normalizeField s.data)

/-- Decides whether a character list contains an HTML-tag-like substring:
a `<` followed (not necessarily adjacently) by a `>`.  On newline-free
text this is exactly "some substring matches `<.*?>`". -/
def hasTag : List Char → Bool
  | [] => false
  | c :: cs => (c == '<' && cs.any (· == '>')) || hasTag cs

/-- Substring containment on character lists, the model of Python's
`needle in haystack`. -/
def containsSub (needle : List Char) : List Char → Bool
  | [] => needle.isEmpty
  | c :: rest => List.isPrefixOf needle (c :: rest) || containsSub needle rest

/-- Lookup in an association list (first matching key). -/
def dictLookup {κ α : Type} [DecidableEq κ] : List (κ × α) → κ → Option α
  | [], _ => none
  | p :: rest, k => if p.1 = k then some p.2 else dictLookup rest k

/-- Python dict assignment `d[k] = v`: update the value in place if the
key is present, append otherwise. -/
def dictInsert {κ α : Type} [DecidableEq κ] : List (κ × α) → κ → α → List (κ × α)
  | [], k, v => [(k, v)]
  | p :: rest, k, v =>
    if p.1 = k then (k, v) :: rest else p :: dictInsert rest k v

/-- Fold a pair list into a dict, starting from `acc`. -/
def dictOfPairsAux {κ α : Type} [DecidableEq κ] (acc : List (κ × α)) :
    List (κ × α) → List (κ × α)
  | [] => acc
  | p :: rest => dictOfPairsAux (dictInsert acc p.1 p.2) rest

/-- Python dict built from a pair sequence (`dict(zip(...))` or a dict
comprehension): later occurrences of a key overwrite earlier ones in
place. -/
def dictOfPairs {κ α : Type} [DecidableEq κ] (l : List (κ × α)) : List (κ × α) :=
  dictOfPairsAux [] l

/-- Python `d.update(other)`: insert every pair of `other` into `d` in
order. -/
def dictUpdate {κ α : Type} [DecidableEq κ] (d other : List (κ × α)) : List (κ × α) :=
  dictOfPairsAux d other

/-- The effective position used by Python `list.insert(i, x)`: a negative
index counts from the end (floored at 0), an index beyond the length
appends at the end. -/
def pyInsertPos (n : Nat) (i : Int) : Nat :=
  if i < 0 then ((n : Int) + i).toNat else min i.toNat n

/-- Model of Python `list.insert(i, x)`. -/
def pyInsert {α : Type} (l : List α) (i : Int) (x : α) : List α :=
  let p := pyInsertPos l.length i
  l.take p ++ x :: l.drop p

/-- The fixed currency table of `Salary.convert_to_rubles`; `none` models
the `KeyError` on an unknown code. -/
def currency_to_rub (c : String) : Option Rat :=
  if c = "AZN" then some (3568 / 100)
  else if c = "BYR" then some (2391 / 100)
  else if c = "EUR" then some (5990 / 100)
  else if c = "GEL" then some (2174 / 100)
  else if c = "KGS" then some (76 / 100)
  else if c = "KZT" then some (13 / 100)
  else if c = "RUR" then some 1
  else if c = "UAH" then some (164 / 100)
  else if c = "USD" then some (6066 / 100)
  else if c = "UZS" then some (55 / 10000)
  else none

/-- The ten known currency codes. -/
def known_codes : List String :=
  ["AZN", "BYR", "EUR", "GEL", "KGS", "KZT", "RUR", "UAH", "USD", "UZS"]

/-- State of a `Salary` object after `__init__`: the parsed bounds and the
currency code. -/
structure Salary where
  salary_from : Rat
  salary_to : Rat
  salary_currency : String
deriving DecidableEq, Repr

/-- The stored representative value,
`self.average_salary = int(float(salary_from) + float(salary_to)) / 2`:
the truncation applies to the sum of the bounds, the halving happens
afterwards in float arithmetic. -/
def Salary.average_salary (s : Salary) : Rat :=
  ((pyInt (s.salary_from + s.salary_to) : Int) : Rat) / 2

/-- Construction of a `Salary` from the raw string fields
(`float(salary_from)`, `float(salary_to)`); `none` models the propagated
`ValueError`. -/
def mk_salary (salary_from salary_to salary_currency : String) : Option Salary := do
  let f ← pyFloatOfString? salary_from
  let t ← pyFloatOfString? salary_to
  pure { salary_from := f, salary_to := t, salary_currency := salary_currency }

/-- `Salary.convert_to_rubles`:
`self.average_salary * currency_to_rub[self.salary_currency]`, with the
`KeyError` on an unknown code propagated as `none`. -/
def Salary.convert_to_rubles (s : Salary) : Option Rat :=
  (currency_to_rub s.salary_currency).map (fun rate => s.average_salary * rate)

/-- State of a `Vacancy` object after `__init__`.  The year is
`published_at[:4]`, stored here already parsed (see the module comment). -/
structure Vacancy where
  name : String
  salary : Salary
  area_name : String
  published_at : String
  year : Int
deriving DecidableEq, Repr

/-- Construction of a `Vacancy` from a field dictionary; a missing key is
a `KeyError` and an unparsable number a `ValueError`, both `none`. -/
def mk_vacancy (d : List (String × String)) : Option Vacancy := do
  let name ← dictLookup d "name"
  let sf ← dictLookup d "salary_from"
  let st ← dictLookup d "salary_to"
  let cur ← dictLookup d "salary_currency"
  let salary ← mk_salary sf st cur
  let area ← dictLookup d "area_name"
  let pub ← dictLookup d "published_at"
  let year ← pyIntOfString? (pub.take 4)
  pure { name := name, salary := salary, area_name := area,
         published_at := pub, year := year }

/-- The row-validity test of `process_vacancies`, exactly as in the
source: `len(vacancy) == len(headlines) and all(v != "" for v in
vacancy)` — the emptiness test is on the raw field, with no trimming. -/
def rowValid (headlines row : List String) : Bool :=
  row.length == headlines.length && row.all (fun v => v != "")

/-- Modelled from the spec: the validity predicate as the spec words it,
"`len(row) == len(headers)` AND no field is empty after whitespace trim".
A field is empty after trimming exactly when all its characters are
whitespace. -/
def specRowValid (headlines row : List String) : Bool :=
  row.length == headlines.length && row.all (fun v => !(v.data.all isPySpace))

/-- One kept row: normalize every field, zip with the headers into a
dict, construct the `Vacancy`. -/
def row_to_vacancy (headlines row : List String) : Option Vacancy :=
  mk_vacancy (dictOfPairs (headlines.zip (row.map normalizeStr)))

/-- `DataSet.process_vacancies`: keep exactly the rows passing
`rowValid`, normalize and convert each kept row; a construction error
aborts the whole run (`none`). -/
def process_vacancies (headlines : List String) : List (List String) → Option (List Vacancy)
  | [] => some []
  | v :: rest =>
    if rowValid headlines v then
      match row_to_vacancy headlines v with
      | none => none
      | some vac => (process_vacancies headlines rest).map (fun l => vac :: l)
    else process_vacancies headlines rest

/-- State of a `YearSalary` accumulator: the grouping parameter (a year),
the running converted-salary total, and the vacancy count. -/
structure YearSalary where
  param : Int
  salary : Rat
  count_vacancies : Nat
deriving DecidableEq, Repr

/-- `YearSalary.__init__`: the first record of a key, count 1, salary
already converted to rubles (a `KeyError` propagates). -/
def YearSalary.ofSalary (param : Int) (s : Salary) : Option YearSalary :=
  (s.convert_to_rubles).map
    (fun r => { param := param, salary := r, count_vacancies := 1 })

/-- `YearSalary.add_salary`: increment the count and add the converted
salary. -/
def YearSalary.add_salary (ys : YearSalary) (s : Salary) : Option YearSalary :=
  (s.convert_to_rubles).map
    (fun r => { ys with count_vacancies := ys.count_vacancies + 1,
                        salary := ys.salary + r })

/-- Update-in-place of the accumulator whose key is `v.year`
(`param_salary[vacancy.year] = param_salary[vacancy.year].add_salary(...)`). -/
def addSalaryAt (v : Vacancy) (acc : List YearSalary) :
    Option (List YearSalary) :=
  match v.salary.convert_to_rubles with
  | none => none
  | some r =>
    some (acc.map fun ys =>
      if ys.param == v.year then
        { ys with count_vacancies := ys.count_vacancies + 1,
                  salary := ys.salary + r }
      else ys)

/-- Loop of `Statistic.convert_to_param_salary` over the vacancy list;
`acc` is the insertion-ordered dict of accumulators. -/
def ctpsGo : List Vacancy → List YearSalary → Option (List YearSalary)
  | [], acc => some acc
  | v :: rest, acc =>
    if acc.any (fun ys => ys.param == v.year) then
      match addSalaryAt v acc with
      | none => none
      | some acc' => ctpsGo rest acc'
    else
      match YearSalary.ofSalary v.year v.salary with
      | none => none
      | some e => ctpsGo rest (acc ++ [e])

/-- `Statistic.convert_to_param_salary`: group the records by year in
first-appearance order. -/
def convert_to_param_salary (vacancies : List Vacancy) : Option (List YearSalary) :=
  ctpsGo vacancies []

/-- `Statistic.__convert_from_param_salary_to_dict`: the pair of plain
mappings (year to truncated average, year to count). -/
def convert_from_param_salary_to_dict (param_salary : List YearSalary) :
    List (Int × Int) × List (Int × Nat) :=
  (dictOfPairs (param_salary.map fun v =>
      (v.param, if v.count_vacancies = 0 then 0
                else pyInt (v.salary / (v.count_vacancies : Rat)))),
   dictOfPairs (param_salary.map fun v => (v.param, v.count_vacancies)))

/-- The zero entry inserted by `__add_missing_years`:
`YearSalary(y, Salary("0", "0", "RUR"))` (count still 1 here; the loop
zeroes it afterwards). -/
def zeroYearSalary (param : Int) : Option YearSalary :=
  match mk_salary "0" "0" "RUR" with
  | none => none
  | some s => YearSalary.ofSalary param s

/-- The statement `param_salary[i].count_vacancies = 0` of the source:
Python indexing semantics, `none` on `IndexError`. -/
def pySetCount0 (l : List YearSalary) (i : Int) : Option (List YearSalary) :=
  let j : Int := if i < 0 then (l.length : Int) + i else i
  if 0 ≤ j then
    match l.get? j.toNat with
    | some ys => some (l.set j.toNat { ys with count_vacancies := 0 })
    | none => none
  else none

/-- Loop of `Statistic.__add_missing_years` over the reference years;
`first` is `int(years[0])` and `s_years` the (fixed) original filtered
year list. -/
def amyLoop (first : Int) (s_years : List Int) :
    List Int → List YearSalary → Option (List YearSalary)
  | [], ps => some ps
  | y :: ys, ps =>
    if y ∈ s_years then amyLoop first s_years ys ps
    else
      match zeroYearSalary y with
      | none => none
      | some e =>
        match pySetCount0 (pyInsert ps (y - first) e) (y - first) with
        | none => none
        | some ps2 => amyLoop first s_years ys ps2

/-- `Statistic.__add_missing_years`: for every reference year missing
from the filtered list, insert a zero entry at offset
`int(y) - int(years[0])` and zero its count; `none` models the
`IndexError` the zeroing assignment can raise. -/
def add_missing_years (param_salary year_salary : List YearSalary) :
    Option (List YearSalary) :=
  amyLoop ((year_salary.map YearSalary.param).headD 0)
    (param_salary.map YearSalary.param)
    (year_salary.map YearSalary.param) param_salary

/-- `Statistic.process_data` from the record list on (the file reading
itself is I/O): split off the profession subset by substring match on
the title, aggregate both, gap-fill the subset, convert both to plain
mappings. -/
def process_data_records (profession : String) (data : List Vacancy) :
    Option (List (Int × Int) × List (Int × Nat) × List (Int × Int) × List (Int × Nat)) := do
  let data_profession := data.filter fun d => containsSub profession.data d.name.data
  let year_salary ← convert_to_param_salary data
  let prof_ys ← convert_to_param_salary data_profession
  let professions_year_salary ← add_missing_years prof_ys year_salary
  let yd := convert_from_param_salary_to_dict year_salary
  let pd := convert_from_param_salary_to_dict professions_year_salary
  pure (yd.1, yd.2, pd.1, pd.2)

/-- `Statistic.process_data` from the raw CSV rows on. -/
def process_data_rows (profession : String) (headlines : List String)
    (rows : List (List String)) :
    Option (List (Int × Int) × List (Int × Nat) × List (Int × Int) × List (Int × Nat)) := do
  let data ← process_vacancies headlines rows
  process_data_records profession data

/-- The consecutive year range `[f, f + 1, ..., f + m - 1]`. -/
def consecYears (f : Int) : Nat → List Int
  | 0 => []
  | m + 1 => f :: consecYears (f + 1) m

/-- First-appearance order of the values of a list, relative to an
already-seen set. -/
def firstAppearanceAux : List Int → List Int → List Int
  | [], _ => []
  | y :: ys, seen =>
    if y ∈ seen then firstAppearanceAux ys seen
    else y :: firstAppearanceAux ys (seen ++ [y])

/-- The distinct values of a list in order of first appearance. -/
def firstAppearance (l : List Int) : List Int := firstAppearanceAux l []

/-- The header row of the input CSV files. -/
def headlines0 : List String :=
  ["name", "salary_from", "salary_to", "salary_currency", "area_name", "published_at"]

/-- A raw row whose first field is whitespace only. -/
def rowWhitespaceName : List String :=
  [" ", "100", "200", "RUR", "Москва", "2005-12-03T17:41:49+0300"]

/-- Two fully well-formed rows (known currency, numeric salaries) spanning
the non-contiguous years 2005 and 2010; only the first title contains the
profession keyword used below. -/
def rowsGap : List (List String) :=
  [["Аналитик данных", "75000.0", "95000.0", "RUR", "Москва", "2005-12-03T17:41:49+0300"],
   ["Инженер", "100", "200", "RUR", "Москва", "2010-01-01T00:00:00+0300"]]

/-- Three records whose years appear in the order 2007, 2005, 2007. -/
def vacScrambled : List Vacancy :=
  [⟨"Инженер", ⟨100, 200, "RUR"⟩, "Москва", "2007-12-01T00:00:00+0300", 2007⟩,
   ⟨"Аналитик", ⟨0, 100, "RUR"⟩, "Тверь", "2005-03-01T00:00:00+0300", 2005⟩,
   ⟨"Инженер-программист", ⟨100, 100, "RUR"⟩, "Москва", "2007-06-01T00:00:00+0300", 2007⟩]

/-- Number of the first `k` reference years `f, f+1, ..., f+k-1` that
occur in the year list `S`; the bookkeeping quantity of the gap-filling
analysis. -/
def presentCount (f : Int) (S : List Int) (k : Nat) : Nat :=
  (((List.range k).map (fun d : Nat => f + (d : Int))).filter
    (fun y => decide (y ∈ S))).length

end VacancyStats

namespace VacancyStats

attribute [local semireducible] Rat.mul Rat.add Rat.sub Rat.inv Rat.ofScientific

/-- `Salary("0", "0", "RUR")` wrapped in a `YearSalary` evaluates to the
zero-salary, count-one accumulator. -/
lemma zeroYearSalary_eq (p : Int) : zeroYearSalary p = some ⟨p, 0, 1⟩ := by
  have h : mk_salary "0" "0" "RUR" = some ⟨0, 0, "RUR"⟩ := by decide
  unfold zeroYearSalary
  rw [h]
  have h2 : Salary.convert_to_rubles ⟨0, 0, "RUR"⟩ = some 0 := by decide
  simp [YearSalary.ofSalary, h2]

/-- C1, counterexample.  The claim asserts that the stored representative
value is `int((low+high)/2)`; on bounds 100 and 201 that would be 150, so
`convert_to_rubles` under RUR (rate 1) would return 150.0.  The source
computes `int(100+201)/2 = 150.5` instead: the truncation applies to the
sum, not to the midpoint. -/
theorem C1_counterexample :
    Salary.convert_to_rubles ⟨100, 201, "RUR"⟩ = some (mkRat 301 2) ∧
    (pyInt (((100 : Rat) + 201) / 2) : Rat) * 1 = 150 ∧
    mkRat 301 2 ≠ (150 : Rat) := by
  refine ⟨by decide, by decide, by decide⟩

/-- C1 (amended): the stored representative value is `int(low+high)/2` —
the truncation applies to the sum of the bounds before the halving, so
the representative value can end in .5 — and `convert_to_rubles` returns
that value times the fixed rate of the currency code; the two concrete
examples of the claim nevertheless hold:
`Salary(100, 200, "RUR").convert_to_rubles() == 150.0` and
`Salary(100, 200, "AZN").convert_to_rubles() == 5352.0`. -/
theorem C1_theorem :
    (∀ (s : Salary) (r : Rat), currency_to_rub s.salary_currency = some r →
        s.convert_to_rubles =
          some (((pyInt (s.salary_from + s.salary_to) : Int) : Rat) / 2 * r)) ∧
    Salary.convert_to_rubles ⟨100, 200, "RUR"⟩ = some 150 ∧
    Salary.convert_to_rubles ⟨100, 200, "AZN"⟩ = some 5352 := by
  refine ⟨?_, by decide, by decide⟩
  intro s r hr
  simp [Salary.convert_to_rubles, hr, Salary.average_salary]

/-- Witness for C1: the general statement applied to
`Salary(200, 300, "USD")`, whose representative value is 250 and
converted value 250 × 60.66 = 15165. -/
theorem C1_witness : Salary.convert_to_rubles ⟨200, 300, "USD"⟩ = some 15165 := by
  have h := C1_theorem.1 ⟨200, 300, "USD"⟩ ((6066 : Rat) / 100) (by decide)
  rw [h]; decide

/-- C2 (amended): a raw row is kept, normalized and turned into a
`Vacancy` if and only if it has exactly as many fields as the header and
no field is the raw empty string — the emptiness test applies no
whitespace trimming, so a whitespace-only field counts as non-empty —
and every row failing this predicate is silently dropped, contributing
nothing to the result (and hence to any aggregate computed from it). -/
theorem C2_theorem (headlines : List String) (rows : List (List String)) :
    process_vacancies headlines rows =
      (rows.filter (fun v => rowValid headlines v)).mapM (row_to_vacancy headlines) := by
  induction rows with
  | nil => rfl
  | cons v rest ih =>
    by_cases h : rowValid headlines v = true
    · rw [List.filter_cons_of_pos h, List.mapM_cons]
      simp only [process_vacancies, if_pos h]
      cases hrv : row_to_vacancy headlines v with
      | none => simp
      | some vac =>
        rw [ih]
        cases hm : (rest.filter fun v => rowValid headlines v).mapM (row_to_vacancy headlines) with
        | none => simp [hm]
        | some l => simp [hm]
    · rw [List.filter_cons_of_neg h]
      simp only [process_vacancies, if_neg h]
      exact ih

/-- C2, counterexample to the claim as stated: a row whose first field
is the single blank `" "` is empty after whitespace trimming, so the
claim says it is dropped; the source's test `v != ""` sees a non-empty
raw field and keeps the row (one `Vacancy` is produced). -/
theorem C2_counterexample :
    specRowValid headlines0 rowWhitespaceName = false ∧
    rowValid headlines0 rowWhitespaceName = true ∧
    (process_vacancies headlines0 [rowWhitespaceName]).map List.length = some 1 := by
  refine ⟨by decide, by decide, by decide⟩

/-- C5, counterexample.  With one filtered entry (year 2005) and the
reference years {2005, 2011}, the computed insertion index for the
missing year 2011 is 6, which exceeds the length 1.  The claim says the
insertion "still proceeds at that index with no bounds clamp"; in fact
Python's `list.insert` clamps the position to the end (the element lands
at index 1, and index 6 holds nothing), and the follow-up count-zeroing
assignment at index 6 raises `IndexError`, so the whole gap-filling call
aborts. -/
theorem C5_counterexample :
    pyInsert [(⟨2005, 70000, 1⟩ : YearSalary)] 6 ⟨2011, 0, 1⟩ =
      [⟨2005, 70000, 1⟩, ⟨2011, 0, 1⟩] ∧
    (pyInsert [(⟨2005, 70000, 1⟩ : YearSalary)] 6 ⟨2011, 0, 1⟩).get? 6 = none ∧
    add_missing_years [⟨2005, 70000, 1⟩] [⟨2005, 70000, 1⟩, ⟨2011, 30000, 1⟩] = none := by
  refine ⟨by decide, by decide, by decide⟩

/-- C5 (amended): when the computed insertion index strictly exceeds the
current length of the filtered sequence, `list.insert` clamps the
position and appends the zero entry at the end, and the follow-up
count-zeroing assignment at the unclamped index raises `IndexError`,
aborting the gap-filling loop (negative indexes are likewise interpreted
relative to the end of the list rather than used as-is). -/
theorem C5_theorem (ps : List YearSalary) (f y : Int) (s_years ys : List Int)
    (hnot : y ∉ s_years) (hgt : (ps.length : Int) < y - f) :
    (∀ e : YearSalary, pyInsert ps (y - f) e = ps ++ [e]) ∧
    amyLoop f s_years (y :: ys) ps = none := by
  have hi0 : ¬ (y - f < 0) := by omega
  have hpos : pyInsertPos ps.length (y - f) = ps.length := by
    simp only [pyInsertPos, if_neg hi0]
    exact Nat.min_eq_right (by omega)
  have hins : ∀ e : YearSalary, pyInsert ps (y - f) e = ps ++ [e] := by
    intro e
    simp [pyInsert, hpos, List.take_length, List.drop_length]
  refine ⟨hins, ?_⟩
  simp only [amyLoop, if_neg hnot, zeroYearSalary_eq]
  have hset : pySetCount0 (ps ++ [(⟨y, 0, 1⟩ : YearSalary)]) (y - f) = none := by
    simp only [pySetCount0, if_neg hi0]
    rw [if_pos (by omega)]
    rw [List.get?_eq_none.mpr (by simp; omega)]
  rw [hins, hset]

/-- Witness for C5: the amended statement applied to the concrete
05/11 gap instance. -/
theorem C5_witness :
    (∀ e : YearSalary, pyInsert [(⟨2005, 70000, 1⟩ : YearSalary)] ((2011 : Int) - 2005) e =
      [⟨2005, 70000, 1⟩] ++ [e]) ∧
    amyLoop 2005 [2005] [2011] [⟨2005, 70000, 1⟩] = none :=
  C5_theorem [⟨2005, 70000, 1⟩] 2005 2011 [2005] [] (by decide) (by decide)

/-- C7: `convert_to_rubles` fails (with the `KeyError` modelled as
`none`) exactly when the currency code is not one of the ten known
codes, the failure propagates with no silent default, and for a known
code the result is the stored representative value times that code's
rate, the RUR rate being 1. -/
theorem C7_theorem :
    (∀ s : Salary, s.convert_to_rubles = none ↔ s.salary_currency ∉ known_codes) ∧
    (∀ (s : Salary) (r : Rat), currency_to_rub s.salary_currency = some r →
        s.convert_to_rubles = some (s.average_salary * r)) ∧
    currency_to_rub "RUR" = some 1 := by
  refine ⟨?_, ?_, by decide⟩
  · intro s
    rw [Salary.convert_to_rubles, Option.map_eq_none']
    unfold currency_to_rub
    split_ifs with h1 h2 h3 h4 h5 h6 h7 h8 h9 h10 <;> simp_all [known_codes]
  · intro s r hr
    simp [Salary.convert_to_rubles, hr]

/-- Witness for C7: `Salary(100, 200, "EUR")` converts to
150 × 59.9 = 8985, and an unknown code `"GBP"` yields the propagated
lookup failure. -/
theorem C7_witness :
    Salary.convert_to_rubles ⟨100, 200, "EUR"⟩ = some 8985 ∧
    Salary.convert_to_rubles ⟨100, 200, "GBP"⟩ = none := by
  constructor
  · have h := C7_theorem.2.1 ⟨100, 200, "EUR"⟩ ((5990 : Rat) / 100) (by decide)
    rw [h]; decide
  · exact (C7_theorem.1 ⟨100, 200, "GBP"⟩).mpr (by decide)

/-- C10: a fully valid input (every row well-formed, every currency
known) on which `process_data` nevertheless aborts with an `IndexError`
inside the gap filling: the rows span only the non-contiguous years 2005
and 2010 and the profession subset contains only the 2005 record, so the
missing year 2010 gets insertion offset 5 in a list of length 1 — the
insert clamps to an append, and the follow-up count-zeroing assignment
indexes past the end.  Hence `process_data` is not total even on valid
inputs. -/
theorem C10_theorem :
    (process_vacancies headlines0 rowsGap).map List.length = some 2 ∧
    ((process_vacancies headlines0 rowsGap).bind convert_to_param_salary) =
      some [⟨2005, 85000, 1⟩, ⟨2010, 150, 1⟩] ∧
    add_missing_years [⟨2005, 85000, 1⟩] [⟨2005, 85000, 1⟩, ⟨2010, 150, 1⟩] = none ∧
    process_data_rows "Аналитик" headlines0 rowsGap = none := by
  refine ⟨by decide, by decide, by decide, Option.isNone_iff_eq_none.mp (by decide)⟩

/-- Inserting an absent key appends the pair at the end. -/
lemma dictInsert_of_not_mem {κ α : Type} [DecidableEq κ] (v : α) (k : κ) :
    ∀ d : List (κ × α), k ∉ d.map Prod.fst → dictInsert d k v = d ++ [(k, v)] := by
  intro d
  induction d with
  | nil => intro _; rfl
  | cons p rest ih =>
    intro h
    simp only [List.map_cons, List.mem_cons, not_or] at h
    simp only [dictInsert, if_neg (fun he : p.1 = k => h.1 he.symm)]
    rw [ih h.2]
    simp

/-- Folding a pair list with pairwise-distinct keys into a dict keeps it
as it is. -/
lemma dictOfPairsAux_eq_append {κ α : Type} [DecidableEq κ] :
    ∀ (l acc : List (κ × α)), ((acc ++ l).map Prod.fst).Nodup →
      dictOfPairsAux acc l = acc ++ l := by
  intro l
  induction l with
  | nil => intro acc _; simp [dictOfPairsAux]
  | cons p rest ih =>
    intro acc h
    rw [List.map_append, List.map_cons] at h
    have hmid := List.nodup_cons.mp (List.nodup_middle.mp h)
    have hk : p.1 ∉ acc.map Prod.fst := fun hm => hmid.1 (by simp [hm])
    simp only [dictOfPairsAux]
    rw [dictInsert_of_not_mem _ _ _ hk, ih (acc ++ [p])]
    · simp
    · rw [List.append_assoc]
      simpa using h

/-- A pair list with pairwise-distinct keys is its own dict. -/
lemma dictOfPairs_eq_self {κ α : Type} [DecidableEq κ] (l : List (κ × α))
    (h : (l.map Prod.fst).Nodup) : dictOfPairs l = l := by
  have := dictOfPairsAux_eq_append l [] (by simpa using h)
  simpa [dictOfPairs] using this

/-- C6: on accumulators with pairwise-distinct years (which the grouping
step always produces), the plain mappings are exactly
`salaryMap[year] = 0` when the count is 0 and otherwise the truncation of
`sum / count` toward zero, and `countMap[year] = count`. -/
theorem C6_theorem (l : List YearSalary) (h : (l.map YearSalary.param).Nodup) :
    convert_from_param_salary_to_dict l =
      (l.map fun v => (v.param, if v.count_vacancies = 0 then 0
                                else pyInt (v.salary / (v.count_vacancies : Rat))),
       l.map fun v => (v.param, v.count_vacancies)) := by
  have h1 : ((l.map fun v => (v.param, if v.count_vacancies = 0 then 0
      else pyInt (v.salary / (v.count_vacancies : Rat)))).map Prod.fst).Nodup := by
    simpa [List.map_map, Function.comp] using h
  have h2 : ((l.map fun v => (v.param, v.count_vacancies)).map Prod.fst).Nodup := by
    simpa [List.map_map, Function.comp] using h
  unfold convert_from_param_salary_to_dict
  rw [dictOfPairs_eq_self _ h1, dictOfPairs_eq_self _ h2]

/-- Witness for C6: an aggregate of sum 10 over 3 vacancies maps to the
truncated average 3, and a zero-count aggregate maps to salary 0. -/
theorem C6_witness :
    convert_from_param_salary_to_dict [⟨2005, 10, 3⟩, ⟨2006, 0, 0⟩] =
      ([(2005, 3), (2006, 0)], [(2005, 3), (2006, 0)]) := by
  rw [C6_theorem _ (by decide)]
  decide

/-- Key membership after a single dict insertion. -/
lemma mem_keys_dictInsert {κ α : Type} [DecidableEq κ] (k : κ) (v : α) (q : κ) :
    ∀ d : List (κ × α),
      q ∈ (dictInsert d k v).map Prod.fst ↔ q ∈ d.map Prod.fst ∨ q = k := by
  intro d
  induction d with
  | nil => simp [dictInsert]
  | cons p rest ih =>
    by_cases hp : p.1 = k
    · simp only [dictInsert]
      rw [if_pos hp]
      simp only [List.map_cons, List.mem_cons, hp]
      tauto
    · simp only [dictInsert]
      rw [if_neg hp]
      simp only [List.map_cons, List.mem_cons]
      rw [ih]
      tauto

/-- Key membership after folding a pair list into a dict. -/
lemma mem_keys_dictOfPairsAux {κ α : Type} [DecidableEq κ] (q : κ) :
    ∀ (l d : List (κ × α)),
      q ∈ (dictOfPairsAux d l).map Prod.fst ↔
        q ∈ d.map Prod.fst ∨ q ∈ l.map Prod.fst := by
  intro l
  induction l with
  | nil => intro d; simp [dictOfPairsAux]
  | cons p rest ih =>
    intro d
    simp only [dictOfPairsAux, List.map_cons, List.mem_cons]
    rw [ih, mem_keys_dictInsert]
    tauto

/-- Lookup after a single dict insertion. -/
lemma dictLookup_dictInsert {κ α : Type} [DecidableEq κ] (k : κ) (v : α) (q : κ) :
    ∀ d : List (κ × α),
      dictLookup (dictInsert d k v) q = if q = k then some v else dictLookup d q := by
  intro d
  induction d with
  | nil =>
    by_cases h : q = k
    · subst h; simp [dictInsert, dictLookup]
    · simp [dictInsert, dictLookup, if_neg h, if_neg (fun hh : k = q => h hh.symm)]
  | cons p rest ih =>
    by_cases hp : p.1 = k
    · by_cases hq : q = k
      · subst hq
        simp [dictInsert, if_pos hp, dictLookup]
      · simp only [dictInsert, if_pos hp, dictLookup, if_neg hq]
        rw [if_neg (fun hh : k = q => hq hh.symm), if_neg (by rw [hp]; exact fun hh => hq hh.symm)]
    · by_cases hpq : p.1 = q
      · have hq : ¬ q = k := fun hh => hp (hpq.trans hh)
        simp only [dictInsert, if_neg hp, dictLookup, if_pos hpq, if_neg hq]
      · simp only [dictInsert, if_neg hp, dictLookup, if_neg hpq]
        exact ih

/-- Failing lookup characterises key absence. -/
lemma dictLookup_eq_none_iff {κ α : Type} [DecidableEq κ] (k : κ) :
    ∀ l : List (κ × α), dictLookup l k = none ↔ k ∉ l.map Prod.fst := by
  intro l
  induction l with
  | nil => simp [dictLookup]
  | cons p rest ih =>
    by_cases hp : p.1 = k
    · rw [dictLookup, if_pos hp]
      simp [hp]
    · rw [dictLookup, if_neg hp, ih]
      constructor
      · intro hni
        simp only [List.map_cons, List.mem_cons, not_or]
        exact ⟨fun h => hp h.symm, hni⟩
      · intro hni
        simp only [List.map_cons, List.mem_cons, not_or] at hni
        exact hni.2

/-- Updating with pairs whose keys avoid `k` leaves the lookup of `k`
unchanged. -/
lemma dictLookup_dictOfPairsAux_of_not_mem {κ α : Type} [DecidableEq κ] (k : κ) :
    ∀ (l d : List (κ × α)), k ∉ l.map Prod.fst →
      dictLookup (dictOfPairsAux d l) k = dictLookup d k := by
  intro l
  induction l with
  | nil => intro d _; rfl
  | cons p rest ih =>
    intro d h
    simp only [List.map_cons, List.mem_cons, not_or] at h
    simp only [dictOfPairsAux]
    rw [ih _ h.2, dictLookup_dictInsert]
    exact if_neg h.1

/-- Updating with a pair list holding `k` makes the lookup of `k` return
the list's value (the later writer wins). -/
lemma dictLookup_dictOfPairsAux_of_lookup {κ α : Type} [DecidableEq κ] (k : κ) (v : α) :
    ∀ (l d : List (κ × α)), (l.map Prod.fst).Nodup → dictLookup l k = some v →
      dictLookup (dictOfPairsAux d l) k = some v := by
  intro l
  induction l with
  | nil => intro d _ h; simp [dictLookup] at h
  | cons p rest ih =>
    intro d hnd hl
    simp only [List.map_cons, List.nodup_cons] at hnd
    simp only [dictOfPairsAux]
    by_cases hp : p.1 = k
    · rw [dictLookup, if_pos hp] at hl
      have hknotin : k ∉ rest.map Prod.fst := hp ▸ hnd.1
      rw [dictLookup_dictOfPairsAux_of_not_mem k rest _ hknotin, dictLookup_dictInsert,
        if_pos hp.symm]
      exact hl
    · rw [dictLookup, if_neg hp] at hl
      exact ih _ hnd.2 hl

/-- C8: merging per-file mappings with `merged.update(perFile)` is plain
key overwrite in submission order: the merged key set is always the
union of the two key sets (in particular for disjoint files), a year key
present in the second file takes the second file's value
(last-writer-wins), and a year key absent from the second file keeps the
first file's value. -/
theorem C8_theorem (d1 d2 : List (Int × Int)) (h2 : (d2.map Prod.fst).Nodup) :
    (∀ k : Int, k ∈ (dictUpdate d1 d2).map Prod.fst ↔
        k ∈ d1.map Prod.fst ∨ k ∈ d2.map Prod.fst) ∧
    (∀ k v2 : Int, dictLookup d2 k = some v2 →
        dictLookup (dictUpdate d1 d2) k = some v2) ∧
    (∀ k : Int, dictLookup d2 k = none →
        dictLookup (dictUpdate d1 d2) k = dictLookup d1 k) := by
  refine ⟨?_, ?_, ?_⟩
  · intro k; exact mem_keys_dictOfPairsAux k d2 d1
  · intro k v2 h; exact dictLookup_dictOfPairsAux_of_lookup k v2 d2 d1 h2 h
  · intro k h
    exact dictLookup_dictOfPairsAux_of_not_mem k d2 d1 ((dictLookup_eq_none_iff k d2).mp h)

/-- Witness for C8: merging {2005: 10, 2007: 30} with {2006: 20, 2007: 99}
yields the union key set, and the shared year 2007 keeps the second
file's value 99. -/
theorem C8_witness :
    (2006 : Int) ∈ (dictUpdate [((2005 : Int), (10 : Int)), (2007, 30)]
      [(2006, 20), (2007, 99)]).map Prod.fst ∧
    dictLookup (dictUpdate [((2005 : Int), (10 : Int)), (2007, 30)]
      [(2006, 20), (2007, 99)]) 2007 = some 99 := by
  have h := C8_theorem [((2005 : Int), (10 : Int)), (2007, 30)] [(2006, 20), (2007, 99)]
    (by decide)
  exact ⟨(h.1 2006).mpr (Or.inr (by decide)), h.2.1 2007 99 (by decide)⟩

/-- The in-place salary update does not change the key sequence. -/
lemma addSalaryAt_map_param (v : Vacancy) (acc acc' : List YearSalary)
    (h : addSalaryAt v acc = some acc') :
    acc'.map YearSalary.param = acc.map YearSalary.param := by
  unfold addSalaryAt at h
  cases hc : v.salary.convert_to_rubles with
  | none => rw [hc] at h; cases h
  | some r =>
    rw [hc] at h
    cases h
    rw [List.map_map]
    refine List.map_congr_left ?_
    intro ys _
    by_cases hy : (ys.param == v.year) = true <;> simp [Function.comp, hy]

/-- Bridging the Boolean membership test of the grouping loop and key
membership. -/
lemma any_param_iff (acc : List YearSalary) (y : Int) :
    acc.any (fun ys => ys.param == y) = true ↔ y ∈ acc.map YearSalary.param := by
  rw [List.any_eq_true]
  constructor
  · rintro ⟨ys, hmem, hy⟩
    exact List.mem_map.mpr ⟨ys, hmem, by simpa using hy⟩
  · intro hm
    obtain ⟨ys, hmem, hy⟩ := List.mem_map.mp hm
    exact ⟨ys, hmem, by simpa using hy⟩

/-- The grouping loop emits the year keys in first-appearance order
relative to the keys already accumulated. -/
lemma ctpsGo_map_param :
    ∀ (vs : List Vacancy) (acc l : List YearSalary),
      ctpsGo vs acc = some l →
      l.map YearSalary.param =
        acc.map YearSalary.param ++
          firstAppearanceAux (vs.map Vacancy.year) (acc.map YearSalary.param) := by
  intro vs
  induction vs with
  | nil =>
    intro acc l h
    simp only [ctpsGo] at h
    cases h
    simp [firstAppearanceAux]
  | cons v rest ih =>
    intro acc l h
    simp only [ctpsGo] at h
    by_cases hc : acc.any (fun ys => ys.param == v.year) = true
    · rw [if_pos hc] at h
      cases ha : addSalaryAt v acc with
      | none => rw [ha] at h; cases h
      | some acc' =>
        rw [ha] at h
        have hmap := addSalaryAt_map_param v acc acc' ha
        have hrec := ih acc' l h
        rw [hmap] at hrec
        rw [hrec]
        simp only [List.map_cons, firstAppearanceAux]
        rw [if_pos ((any_param_iff acc v.year).mp hc)]
    · rw [if_neg hc] at h
      cases ho : YearSalary.ofSalary v.year v.salary with
      | none => rw [ho] at h; cases h
      | some e =>
        rw [ho] at h
        have hrec := ih (acc ++ [e]) l h
        have hparam : e.param = v.year := by
          unfold YearSalary.ofSalary at ho
          cases hcr : v.salary.convert_to_rubles with
          | none => rw [hcr] at ho; cases ho
          | some r => rw [hcr] at ho; cases ho; rfl
        rw [hrec]
        simp only [List.map_append, List.map_cons, List.map_nil, hparam]
        simp only [List.map_cons, firstAppearanceAux]
        rw [if_neg (fun hmem => hc ((any_param_iff acc v.year).mpr hmem))]
        simp [List.append_assoc]

/-- First-appearance sequences contain no duplicates and avoid the seen
set. -/
lemma firstAppearanceAux_nodup :
    ∀ (l seen : List Int), (firstAppearanceAux l seen).Nodup ∧
      ∀ y ∈ firstAppearanceAux l seen, y ∉ seen := by
  intro l
  induction l with
  | nil => intro seen; simp [firstAppearanceAux]
  | cons y ys ih =>
    intro seen
    by_cases h : y ∈ seen
    · simpa [firstAppearanceAux, h] using ih seen
    · simp only [firstAppearanceAux, if_neg h]
      obtain ⟨hnd, hns⟩ := ih (seen ++ [y])
      refine ⟨List.nodup_cons.mpr ⟨fun hy => ?_, hnd⟩, ?_⟩
      · exact (hns y hy) (by simp)
      · intro z hz
        rcases List.mem_cons.mp hz with rfl | hz'
        · exact h
        · intro hzs; exact hns z hz' (by simp [hzs])

/-- C9: the grouping step produces the year keys in the order of each
year's first appearance in the input (not sorted), and this ordering is
preserved into both plain mappings handed downstream. -/
theorem C9_theorem (vs : List Vacancy) (l : List YearSalary)
    (h : convert_to_param_salary vs = some l) :
    l.map YearSalary.param = firstAppearance (vs.map Vacancy.year) ∧
    (convert_from_param_salary_to_dict l).1.map Prod.fst = l.map YearSalary.param ∧
    (convert_from_param_salary_to_dict l).2.map Prod.fst = l.map YearSalary.param := by
  have h1 : l.map YearSalary.param = firstAppearance (vs.map Vacancy.year) := by
    have := ctpsGo_map_param vs [] l h
    simpa [firstAppearance] using this
  have hnd : (l.map YearSalary.param).Nodup := by
    rw [h1]
    exact (firstAppearanceAux_nodup (vs.map Vacancy.year) []).1
  have hk1 : ((l.map fun v => (v.param, if v.count_vacancies = 0 then 0
      else pyInt (v.salary / (v.count_vacancies : Rat)))).map Prod.fst).Nodup := by
    simpa [List.map_map, Function.comp] using hnd
  have hk2 : ((l.map fun v => (v.param, v.count_vacancies)).map Prod.fst).Nodup := by
    simpa [List.map_map, Function.comp] using hnd
  refine ⟨h1, ?_, ?_⟩
  · unfold convert_from_param_salary_to_dict
    rw [dictOfPairs_eq_self _ hk1]
    simp [List.map_map, Function.comp]
  · unfold convert_from_param_salary_to_dict
    rw [dictOfPairs_eq_self _ hk2]
    simp [List.map_map, Function.comp]

/-- Witness for C9: records with years 2007, 2005, 2007 group into the
key order [2007, 2005], which both plain mappings keep. -/
theorem C9_witness :
    ([⟨2007, 250, 2⟩, ⟨2005, 50, 1⟩] : List YearSalary).map YearSalary.param =
      firstAppearance (vacScrambled.map Vacancy.year) ∧
    (convert_from_param_salary_to_dict [⟨2007, 250, 2⟩, ⟨2005, 50, 1⟩]).1.map Prod.fst =
      ([⟨2007, 250, 2⟩, ⟨2005, 50, 1⟩] : List YearSalary).map YearSalary.param ∧
    (convert_from_param_salary_to_dict [⟨2007, 250, 2⟩, ⟨2005, 50, 1⟩]).2.map Prod.fst =
      ([⟨2007, 250, 2⟩, ⟨2005, 50, 1⟩] : List YearSalary).map YearSalary.param :=
  C9_theorem vacScrambled [⟨2007, 250, 2⟩, ⟨2005, 50, 1⟩] (by decide)

/-- Text without a closing angle bracket has no tag-like substring. -/
lemma hasTag_eq_false_of_no_gt : ∀ l : List Char, '>' ∉ l → hasTag l = false := by
  intro l
  induction l with
  | nil => intro _; rfl
  | cons c cs ih =>
    intro h
    simp only [List.mem_cons, not_or] at h
    have hany : cs.any (fun x => x == '>') = false := by
      rw [List.any_eq_false]
      intro x hx
      simp only [beq_iff_eq]
      exact fun he => h.2 (he ▸ hx)
    simp [hasTag, hany, ih h.2]

/-- Core invariant of the tag scanner: on newline-free input (with a
buffer free of `>`), the output contains no `<` later followed by a
`>`. -/
lemma removeTagsAux_no_tag :
    ∀ (l : List Char) (st : Option (List Char)), '\n' ∉ l →
      (∀ buf, st = some buf → '>' ∉ buf) →
      hasTag (removeTagsAux st l) = false := by
  intro l
  induction l with
  | nil =>
    intro st hnl hbuf
    cases st with
    | none => rfl
    | some buf =>
      simp only [removeTagsAux]
      apply hasTag_eq_false_of_no_gt
      simpa using hbuf buf rfl
  | cons c cs ih =>
    intro st hnl hbuf
    simp only [List.mem_cons, not_or] at hnl
    cases st with
    | none =>
      simp only [removeTagsAux]
      by_cases hc : c = '<'
      · rw [if_pos hc]
        refine ih (some [c]) hnl.2 ?_
        intro buf hb
        cases hb
        simp [hc]
      · rw [if_neg hc]
        simp only [hasTag]
        rw [ih none hnl.2 (by intro buf hb; cases hb)]
        have hcc : (c == '<') = false := beq_eq_false_iff_ne.mpr hc
        simp [hcc]
    | some buf =>
      simp only [removeTagsAux]
      by_cases hgt : c = '>'
      · rw [if_pos hgt]
        exact ih none hnl.2 (by intro buf hb; cases hb)
      · rw [if_neg hgt]
        rw [if_neg (fun hcn : c = '\n' => hnl.1 hcn.symm)]
        refine ih (some (c :: buf)) hnl.2 ?_
        intro buf' hb
        cases hb
        simp only [List.mem_cons, not_or]
        exact ⟨fun hh => hgt hh.symm, hbuf buf rfl⟩

/-- Every character emitted by the tag scanner comes from the input or
the buffer. -/
lemma removeTagsAux_subset :
    ∀ (l : List Char) (st : Option (List Char)) (c : Char), c ∈ removeTagsAux st l →
      c ∈ l ∨ ∃ buf, st = some buf ∧ c ∈ buf := by
  intro l
  induction l with
  | nil =>
    intro st c hc
    cases st with
    | none => simp [removeTagsAux] at hc
    | some buf =>
      simp only [removeTagsAux] at hc
      exact Or.inr ⟨buf, rfl, by simpa using hc⟩
  | cons a cs ih =>
    intro st c hc
    cases st with
    | none =>
      simp only [removeTagsAux] at hc
      by_cases ha : a = '<'
      · rw [if_pos ha] at hc
        rcases ih (some [a]) c hc with h | ⟨buf, hb, hcb⟩
        · exact Or.inl (List.mem_cons_of_mem _ h)
        · cases hb
          simp only [List.mem_singleton] at hcb
          exact Or.inl (by simp [hcb])
      · rw [if_neg ha] at hc
        rcases List.mem_cons.mp hc with rfl | h
        · exact Or.inl (List.mem_cons_self _ _)
        · rcases ih none c h with h' | ⟨buf, hb, _⟩
          · exact Or.inl (List.mem_cons_of_mem _ h')
          · cases hb
    | some buf =>
      simp only [removeTagsAux] at hc
      by_cases hgt : a = '>'
      · rw [if_pos hgt] at hc
        rcases ih none c hc with h | ⟨buf', hb, _⟩
        · exact Or.inl (List.mem_cons_of_mem _ h)
        · cases hb
      · rw [if_neg hgt] at hc
        by_cases hnn : a = '\n'
        · rw [if_pos hnn] at hc
          rcases List.mem_append.mp hc with h | h
          · exact Or.inr ⟨buf, rfl, by simpa using h⟩
          · rcases List.mem_cons.mp h with rfl | h'
            · exact Or.inl (by simp [hnn])
            · rcases ih none c h' with h'' | ⟨buf', hb, _⟩
              · exact Or.inl (List.mem_cons_of_mem _ h'')
              · cases hb
        · rw [if_neg hnn] at hc
          rcases ih (some (a :: buf)) c hc with h | ⟨buf', hb, hcb⟩
          · exact Or.inl (List.mem_cons_of_mem _ h)
          · cases hb
            rcases List.mem_cons.mp hcb with rfl | h'
            · exact Or.inl (List.mem_cons_self _ _)
            · exact Or.inr ⟨buf, rfl, h'⟩

/-- Newline replacement is the identity on newline-free text. -/
lemma replaceNewline_of_no_newline :
    ∀ l : List Char, '\n' ∉ l → replaceNewline l = l := by
  intro l
  induction l with
  | nil => intro _; rfl
  | cons c cs ih =>
    intro h
    simp only [List.mem_cons, not_or] at h
    rw [replaceNewline, if_neg (fun hc : c = '\n' => h.1 hc.symm), ih h.2]

/-- Tokens produced by `str.split()` contain no whitespace characters. -/
lemma pySplitAux_no_space :
    ∀ (l cur : List Char), (∀ c ∈ cur, isPySpace c = false) →
      ∀ t ∈ pySplitAux cur l, ∀ c ∈ t, isPySpace c = false := by
  intro l
  induction l with
  | nil =>
    intro cur hcur t ht c hc
    simp only [pySplitAux] at ht
    by_cases he : cur.isEmpty = true
    · rw [if_pos he] at ht
      simp at ht
    · rw [if_neg he] at ht
      simp only [List.mem_singleton] at ht
      subst ht
      exact hcur c (by simpa using hc)
  | cons a cs ih =>
    intro cur hcur t ht c hc
    simp only [pySplitAux] at ht
    by_cases hs : isPySpace a = true
    · rw [if_pos hs] at ht
      by_cases he : cur.isEmpty = true
      · rw [if_pos he] at ht
        exact ih [] (by simp) t ht c hc
      · rw [if_neg he] at ht
        rcases List.mem_cons.mp ht with rfl | ht'
        · exact hcur c (by simpa using hc)
        · exact ih [] (by simp) t ht' c hc
    · rw [if_neg hs] at ht
      refine ih (a :: cur) ?_ t ht c hc
      intro x hx
      rcases List.mem_cons.mp hx with rfl | hx'
      · exact Bool.eq_false_iff.mpr hs
      · exact hcur x hx'

/-- Every character of a joined token list is a separator space or comes
from one of the tokens. -/
lemma mem_joinSpace : ∀ (ts : List (List Char)) (c : Char), c ∈ joinSpace ts →
    c = ' ' ∨ ∃ t ∈ ts, c ∈ t := by
  intro ts
  induction ts with
  | nil => intro c hc; simp [joinSpace] at hc
  | cons t ts' ih =>
    intro c hc
    cases ts' with
    | nil => exact Or.inr ⟨t, by simp, by simpa [joinSpace] using hc⟩
    | cons t2 ts'' =>
      simp only [joinSpace] at hc
      rcases List.mem_append.mp hc with h | h
      · exact Or.inr ⟨t, by simp, h⟩
      · rcases List.mem_cons.mp h with rfl | h'
        · exact Or.inl rfl
        · rcases ih c h' with h'' | ⟨t', ht', hct⟩
          · exact Or.inl h''
          · exact Or.inr ⟨t', List.mem_cons_of_mem _ ht', hct⟩

/-- Concatenating the split tokens recovers exactly the non-whitespace
characters, in order. -/
lemma pySplitAux_join :
    ∀ (l cur : List Char),
      (pySplitAux cur l).flatten = cur.reverse ++ l.filter (fun c => !isPySpace c) := by
  intro l
  induction l with
  | nil =>
    intro cur
    simp only [pySplitAux, List.filter_nil, List.append_nil]
    by_cases he : cur.isEmpty = true
    · rw [if_pos he]
      simp [List.isEmpty_iff.mp he]
    · rw [if_neg he]
      simp
  | cons a cs ih =>
    intro cur
    simp only [pySplitAux]
    by_cases hs : isPySpace a = true
    · rw [if_pos hs]
      by_cases he : cur.isEmpty = true
      · rw [if_pos he, ih []]
        simp [List.isEmpty_iff.mp he, List.filter_cons, hs]
      · rw [if_neg he]
        simp only [List.flatten_cons]
        rw [ih []]
        simp [List.filter_cons, hs]
    · rw [if_neg hs, ih (a :: cur)]
      have hs' : isPySpace a = false := Bool.eq_false_iff.mpr hs
      simp [List.filter_cons, hs']

/-- Filtering the separator spaces out of a join of whitespace-free
tokens leaves exactly the concatenation of the tokens. -/
lemma joinSpace_filter :
    ∀ ts : List (List Char), (∀ t ∈ ts, ∀ c ∈ t, isPySpace c = false) →
      (joinSpace ts).filter (fun c => !(c == ' ')) = ts.flatten := by
  intro ts
  induction ts with
  | nil => intro _; rfl
  | cons t ts' ih =>
    intro h
    have hft : t.filter (fun c => !(c == ' ')) = t := by
      apply List.filter_eq_self.mpr
      intro c hc
      have hcs := h t (by simp) c hc
      rw [Bool.not_eq_true', beq_eq_false_iff_ne]
      intro he
      subst he
      simp [isPySpace] at hcs
    cases ts' with
    | nil => simpa [joinSpace, List.flatten] using hft
    | cons t2 ts'' =>
      simp only [joinSpace, List.filter_append, List.filter_cons, List.flatten_cons]
      rw [hft]
      have hsp : ((fun c => !(c == ' ')) ' ') = false := by decide
      simp only [hsp]
      rw [ih (fun t' ht' => h t' (List.mem_cons_of_mem _ ht'))]
      simp [List.flatten]

/-- A tag-like pattern survives passing to a superlist. -/
lemma hasTag_sublist :
    ∀ {s t : List Char}, List.Sublist s t → hasTag s = true → hasTag t = true := by
  intro s t h
  induction h with
  | slnil => exact fun h' => h'
  | cons a h ih =>
    intro hs
    simp only [hasTag, Bool.or_eq_true]
    exact Or.inr (ih hs)
  | cons₂ a h ih =>
    intro hs
    simp only [hasTag, Bool.or_eq_true] at hs ⊢
    rcases hs with hh | ht
    · simp only [Bool.and_eq_true] at hh
      refine Or.inl ?_
      simp only [Bool.and_eq_true]
      refine ⟨hh.1, ?_⟩
      obtain ⟨x, hx, hxx⟩ := List.any_eq_true.mp hh.2
      exact List.any_eq_true.mpr ⟨x, h.subset hx, hxx⟩
    · exact Or.inr (ih ht)

/-- A tag-like pattern survives a filter that keeps `<` and `>`. -/
lemma hasTag_filter (p : Char → Bool) (hlt : p '<' = true) (hgt : p '>' = true) :
    ∀ l : List Char, hasTag l = true → hasTag (l.filter p) = true := by
  intro l
  induction l with
  | nil => intro h; simp [hasTag] at h
  | cons c cs ih =>
    intro h
    simp only [hasTag, Bool.or_eq_true] at h
    rcases h with hh | ht
    · simp only [Bool.and_eq_true] at hh
      have hc : c = '<' := by simpa using hh.1
      rw [List.filter_cons, hc, if_pos hlt]
      simp only [hasTag, Bool.or_eq_true, Bool.and_eq_true]
      refine Or.inl ⟨by simp, ?_⟩
      obtain ⟨x, hx, hxx⟩ := List.any_eq_true.mp hh.2
      have hx' : x = '>' := by simpa using hxx
      subst hx'
      exact List.any_eq_true.mpr ⟨'>', List.mem_filter.mpr ⟨hx, hgt⟩, by simp⟩
    · have hrec := ih ht
      rw [List.filter_cons]
      by_cases hpc : p c = true
      · rw [if_pos hpc]
        simp only [hasTag, Bool.or_eq_true]
        exact Or.inr hrec
      · rw [if_neg hpc]
        exact hrec

/-- C3 (amended): every normalized field is free of literal newline
characters; and whenever the raw field itself contains no newline, the
normalized field also contains no HTML-tag-like substring.  (The
newline-free hypothesis is necessary: see the counterexample.) -/
theorem C3_theorem (s : List Char) :
    '\n' ∉ normalizeField s ∧ ('\n' ∉ s → hasTag (normalizeField s) = false) := by
  constructor
  · intro hmem
    rcases mem_joinSpace _ _ hmem with h | ⟨t, ht, hct⟩
    · exact absurd h (by decide)
    · have hns := pySplitAux_no_space _ [] (by simp) t ht '\n' hct
      simp [isPySpace] at hns
  · intro hn
    have hr1nl : '\n' ∉ removeTags s := by
      intro hmem
      rcases removeTagsAux_subset s none '\n' hmem with h | ⟨buf, hb, _⟩
      · exact hn h
      · cases hb
    have hrepl : replaceNewline (removeTags s) = removeTags s :=
      replaceNewline_of_no_newline _ hr1nl
    have hr1tag : hasTag (removeTags s) = false :=
      removeTagsAux_no_tag s none hn (fun buf hb => by cases hb)
    unfold normalizeField
    rw [hrepl]
    by_contra hcon
    rcases Bool.eq_false_or_eq_true (hasTag (joinSpace (pySplit (removeTags s)))) with htag | hff
    · have h1 : hasTag ((joinSpace (pySplit (removeTags s))).filter
          (fun c => !(c == ' '))) = true :=
        hasTag_filter _ (by decide) (by decide) _ htag
      have h2 : (joinSpace (pySplit (removeTags s))).filter (fun c => !(c == ' ')) =
          (pySplit (removeTags s)).flatten :=
        joinSpace_filter _ (pySplitAux_no_space _ [] (by simp))
      have h3 : (pySplit (removeTags s)).flatten =
          (removeTags s).filter (fun c => !isPySpace c) := by
        simpa using pySplitAux_join (removeTags s) []
      have h4 : hasTag ((removeTags s).filter (fun c => !isPySpace c)) = true := by
        rw [← h3, ← h2]
        exact h1
      have h5 : hasTag (removeTags s) = true :=
        hasTag_sublist (List.filter_sublist _) h4
      rw [hr1tag] at h5
      cases h5
    · exact hcon hff

/-- Witness for C3: a field with a complete tag and an embedded newline
keeps no newline, and a newline-free field with tags normalizes tag-free. -/
theorem C3_witness :
    '\n' ∉ normalizeField ("a <b>c</b>\nd".data) ∧
    hasTag (normalizeField ("a  <b>c</b> d".data)) = false :=
  ⟨(C3_theorem ("a <b>c</b>\nd".data)).1,
   (C3_theorem ("a  <b>c</b> d".data)).2 (by decide)⟩

/-- C3, counterexample to the claim as stated: Python's `.` does not
match a newline, so `re.sub("<.*?>", "", value)` leaves `<a\nb>` intact;
the newline replacement then turns it into the HTML-tag-like `<a; b>`,
which survives in the normalized output. -/
theorem C3_counterexample :
    normalizeField ("<a\nb>".data) = "<a; b>".data ∧
    hasTag (normalizeField ("<a\nb>".data)) = true := by
  refine ⟨by decide, by decide⟩

/-- Element read at the length of the left part of an append. -/
lemma get?_append_cons {α : Type} :
    ∀ (l1 : List α) (x : α) (l2 : List α), (l1 ++ x :: l2).get? l1.length = some x := by
  intro l1
  induction l1 with
  | nil => intro x l2; rfl
  | cons a t ih => intro x l2; simpa using ih x l2

/-- Element write at the length of the left part of an append. -/
lemma set_append_cons {α : Type} :
    ∀ (l1 : List α) (x y : α) (l2 : List α),
      (l1 ++ x :: l2).set l1.length y = l1 ++ y :: l2 := by
  intro l1
  induction l1 with
  | nil => intro x y l2; rfl
  | cons a t ih => intro x y l2; simp [List.set, ih]

/-- Inserting at a nonnegative index within bounds places the element
exactly at that position. -/
lemma pyInsert_eq_take_drop {α : Type} (l : List α) (k : Nat) (x : α)
    (hk : k ≤ l.length) :
    pyInsert l (k : Int) x = l.take k ++ x :: l.drop k := by
  have h0 : ¬ ((k : Int) < 0) := by omega
  simp only [pyInsert, pyInsertPos, if_neg h0, Int.toNat_natCast]
  rw [Nat.min_eq_left hk]

/-- Zeroing the count at an index equal to the length of the left part
rewrites exactly the middle element. -/
lemma pySetCount0_at_length (l1 : List YearSalary) (x : YearSalary) (l2 : List YearSalary) :
    pySetCount0 (l1 ++ x :: l2) (l1.length : Int) =
      some (l1 ++ { x with count_vacancies := 0 } :: l2) := by
  have h0 : ¬ ((l1.length : Int) < 0) := by omega
  simp only [pySetCount0, if_neg h0]
  rw [if_pos (by omega : (0 : Int) ≤ (l1.length : Int))]
  rw [Int.toNat_natCast, get?_append_cons]
  show some ((l1 ++ x :: l2).set l1.length { x with count_vacancies := 0 }) =
    some (l1 ++ { x with count_vacancies := 0 } :: l2)
  rw [set_append_cons]

/-- Membership in a consecutive year range. -/
lemma mem_consecYears : ∀ (m : Nat) (f y : Int), y ∈ consecYears f m ↔ f ≤ y ∧ y < f + m := by
  intro m
  induction m with
  | zero => intro f y; simp [consecYears]
  | succ n ih =>
    intro f y
    rw [consecYears, List.mem_cons, ih]
    push_cast
    omega

/-- One more reference year raises the present-year count by one exactly
when that year occurs in `S`. -/
lemma presentCount_succ (f : Int) (S : List Int) (k : Nat) :
    presentCount f S (k + 1) =
      presentCount f S k + (if f + (k : Int) ∈ S then 1 else 0) := by
  unfold presentCount
  rw [List.range_succ, List.map_append, List.filter_append, List.length_append]
  by_cases h : f + (k : Int) ∈ S <;>
    simp [List.filter_cons, h]

/-- At most `|S|` of the reference years can occur in `S`: the occurring
reference years are pairwise distinct and each is a value of `S`. -/
lemma presentCount_le (f : Int) (S : List Int) (k : Nat) :
    presentCount f S k ≤ S.length := by
  have hnd : (((List.range k).map (fun d : Nat => f + (d : Int))).filter
      (fun y => decide (y ∈ S))).Nodup := by
    apply List.Nodup.filter
    refine List.Nodup.map ?_ (List.nodup_range k)
    intro a b hab
    have hab' : f + (a : Int) = f + (b : Int) := hab
    omega
  have hsub : (((List.range k).map (fun d : Nat => f + (d : Int))).filter
      (fun y => decide (y ∈ S))) ⊆ S := by
    intro y hy
    have hmem := List.of_mem_filter hy
    simpa using hmem
  exact (hnd.subperm hsub).length_le

/-- Totality and shape of the gap-filling loop when the reference years
form the consecutive run starting at the current year `g = f + k`.  No
hypothesis on the filtered list is needed: at the step for missing
offset `d` the list always holds at least `d` elements (the original
entries plus one zero entry per earlier gap, minus at most one original
per earlier present year), so the insert lands exactly at `d`, the
count-zeroing assignment hits the inserted element, and later inserts at
strictly larger offsets never move it.  The length-bookkeeping
hypothesis records this counting argument. -/
lemma amyLoop_total (f : Int) (S : List Int) :
    ∀ (r k : Nat) (g : Int) (cur : List YearSalary),
      g = f + k →
      cur.length + presentCount f S k = S.length + k →
      ∃ res : List YearSalary,
        amyLoop f S (consecYears g r) cur = some res ∧
        (∀ e ∈ cur, e ∈ res) ∧
        (∀ d : Nat, d < k → res.get? d = cur.get? d) ∧
        (∀ d : Nat, k ≤ d → d < k + r → (f + (d : Int)) ∉ S →
          res.get? d = some ⟨f + (d : Int), 0, 0⟩) := by
  intro r
  induction r with
  | zero =>
    intro k g cur hg hlen
    refine ⟨cur, by simp [consecYears, amyLoop], fun e he => he, fun d _ => rfl, ?_⟩
    intro d h1 h2 _
    omega
  | succ n ih =>
    intro k g cur hg hlen
    by_cases hmem : g ∈ S
    · -- the current year already has an entry: the loop skips it
      have hpc : presentCount f S (k + 1) = presentCount f S k + 1 := by
        rw [presentCount_succ, if_pos (by rwa [← hg])]
      obtain ⟨res, h1, h2, h3, h4⟩ := ih (k + 1) (g + 1) cur
        (by push_cast; omega) (by rw [hpc]; omega)
      refine ⟨res, ?_, h2, ?_, ?_⟩
      · simp only [consecYears, amyLoop, if_pos hmem]
        exact h1
      · intro d hd
        exact h3 d (by omega)
      · intro d hd1 hd2 hnot
        rcases Nat.eq_or_lt_of_le hd1 with heq | hlt
        · exfalso
          apply hnot
          have hdg : f + (d : Int) = g := by omega
          rw [hdg]
          exact hmem
        · exact h4 d (by omega) (by omega) hnot
    · -- the current year is missing: insert a zero entry at offset k
      have hge : k ≤ cur.length := by
        have := presentCount_le f S k
        omega
      have hpc : presentCount f S (k + 1) = presentCount f S k := by
        rw [presentCount_succ, if_neg (by rwa [← hg]), Nat.add_zero]
      have hidx : g - f = (k : Int) := by omega
      have htk : (cur.take k).length = k := by
        rw [List.length_take]
        omega
      have hins : pyInsert cur (g - f) ⟨g, 0, 1⟩ =
          cur.take k ++ ⟨g, 0, 1⟩ :: cur.drop k := by
        rw [hidx]
        exact pyInsert_eq_take_drop cur k _ hge
      have hset : pySetCount0 (cur.take k ++ (⟨g, 0, 1⟩ : YearSalary) :: cur.drop k)
          (g - f) = some (cur.take k ++ ⟨g, 0, 0⟩ :: cur.drop k) := by
        have h := pySetCount0_at_length (cur.take k) ⟨g, 0, 1⟩ (cur.drop k)
        rw [htk] at h
        rw [hidx]
        exact h
      have hlen2 : (cur.take k ++ (⟨g, 0, 0⟩ : YearSalary) :: cur.drop k).length =
          cur.length + 1 := by
        rw [List.length_append, List.length_cons, List.length_take, List.length_drop]
        omega
      obtain ⟨res, h1, h2, h3, h4⟩ := ih (k + 1) (g + 1)
        (cur.take k ++ ⟨g, 0, 0⟩ :: cur.drop k)
        (by push_cast; omega) (by rw [hlen2, hpc]; omega)
      have hgetk : (cur.take k ++ (⟨g, 0, 0⟩ : YearSalary) :: cur.drop k).get? k =
          some ⟨g, 0, 0⟩ := by
        have h := get?_append_cons (cur.take k) (⟨g, 0, 0⟩ : YearSalary) (cur.drop k)
        rwa [htk] at h
      have hgetd : ∀ d : Nat, d < k →
          (cur.take k ++ (⟨g, 0, 0⟩ : YearSalary) :: cur.drop k).get? d = cur.get? d := by
        intro d hd
        rw [List.get?_append (by rw [htk]; exact hd)]
        exact List.get?_take hd
      refine ⟨res, ?_, ?_, ?_, ?_⟩
      · simp only [consecYears, amyLoop, if_neg hmem, zeroYearSalary_eq]
        rw [hins, hset]
        exact h1
      · intro e he
        apply h2
        rw [← List.take_append_drop k cur] at he
        rcases List.mem_append.mp he with h | h
        · exact List.mem_append.mpr (Or.inl h)
        · exact List.mem_append.mpr (Or.inr (List.mem_cons_of_mem _ h))
      · intro d hd
        rw [h3 d (by omega)]
        exact hgetd d hd
      · intro d hd1 hd2 hnot
        rcases Nat.eq_or_lt_of_le hd1 with heq | hlt
        · rw [h3 d (by omega), ← heq, hgetk, hg]
        · exact h4 d (by omega) (by omega) hnot

/-- C4 (amended): when the reference years form a consecutive ascending
run starting at the earliest year (the shape contiguous per-year data
produces), the gap filling terminates normally for every filtered list
and the claim holds: every year present in the all-records mapping is
also present in the result, every original filtered entry is kept, and
each year with no profession records is filled with salary 0 and count
0 positioned exactly at index (year − earliest reference year).  (The
hypothesis on the reference run is necessary: see the counterexample,
whose reference years appear in the order 2007, 2005, 2006.) -/
theorem C4_theorem (param_salary year_salary : List YearSalary) (f : Int) (m : Nat)
    (href : year_salary.map YearSalary.param = consecYears f m) :
    ∃ res : List YearSalary,
      add_missing_years param_salary year_salary = some res ∧
      (∀ y : Int, y ∈ consecYears f m → y ∈ res.map YearSalary.param) ∧
      (∀ e ∈ param_salary, e ∈ res) ∧
      (∀ d : Nat, d < m → (f + (d : Int)) ∉ param_salary.map YearSalary.param →
        res.get? d = some ⟨f + (d : Int), 0, 0⟩) := by
  unfold add_missing_years
  rw [href]
  cases m with
  | zero =>
    refine ⟨param_salary, by simp [consecYears, amyLoop], ?_, fun e he => he, ?_⟩
    · intro y hy
      simp [consecYears] at hy
    · intro d hd
      exact absurd hd (by omega)
  | succ n =>
    obtain ⟨res, h1, h2, h3, h4⟩ :=
      amyLoop_total f (param_salary.map YearSalary.param) (n + 1) 0 f param_salary
        (by push_cast; ring) (by simp [presentCount])
    refine ⟨res, h1, ?_, h2, ?_⟩
    · intro y hy
      by_cases hyS : y ∈ param_salary.map YearSalary.param
      · obtain ⟨e, he, hep⟩ := List.mem_map.mp hyS
        exact List.mem_map.mpr ⟨e, h2 e he, hep⟩
      · obtain ⟨hy1, hy2⟩ := (mem_consecYears (n + 1) f y).mp hy
        obtain ⟨d, hdy, hdm⟩ : ∃ d : Nat, (d : Int) = y - f ∧ d < n + 1 := by
          refine ⟨(y - f).toNat, by omega, by omega⟩
        have hyd : f + (d : Int) = y := by omega
        have hres := h4 d (by omega) (by omega) (by rwa [hyd])
        exact List.mem_map.mpr ⟨_, List.get?_mem hres, by simp [hyd]⟩
    · intro d hd hnot
      exact h4 d (by omega) (by omega) hnot

/-- C4, counterexample to the claim as stated: with reference years in
first-appearance order 2007, 2005, 2006 and the single filtered year
2007, the negative insertion offsets make the count-zeroing assignment
hit the wrong elements: the gap year 2006 ends with count 1 (not 0), and
the filled year 2005 sits at index 0 rather than at its offset
2005 − 2007 = −2. -/
theorem C4_counterexample :
    add_missing_years [⟨2007, 100, 1⟩] [⟨2007, 100, 1⟩, ⟨2005, 60, 1⟩, ⟨2006, 70, 1⟩] =
      some [⟨2005, 0, 0⟩, ⟨2006, 0, 1⟩, ⟨2007, 100, 0⟩] ∧
    (2006 : Int) ∉ ([⟨2007, 100, 1⟩] : List YearSalary).map YearSalary.param ∧
    ((⟨2006, 0, 1⟩ : YearSalary).count_vacancies ≠ 0) := by
  refine ⟨by decide, by decide, by decide⟩

/-- Witness for C4: reference years {2005, 2006, 2007} with filtered
years {2005, 2007} — the gap year 2006 is inserted in reference order
with salary 0 and count 0 at index 2006 − 2005 = 1. -/
theorem C4_witness :
    ∃ res : List YearSalary,
      add_missing_years [⟨2005, 100, 1⟩, ⟨2007, 200, 1⟩]
        [⟨2005, 300, 2⟩, ⟨2006, 50, 1⟩, ⟨2007, 200, 1⟩] = some res ∧
      (∀ y : Int, y ∈ consecYears 2005 3 → y ∈ res.map YearSalary.param) ∧
      (∀ e ∈ ([⟨2005, 100, 1⟩, ⟨2007, 200, 1⟩] : List YearSalary), e ∈ res) ∧
      (∀ d : Nat, d < 3 →
        ((2005 : Int) + (d : Int)) ∉ ([⟨2005, 100, 1⟩, ⟨2007, 200, 1⟩] :
          List YearSalary).map YearSalary.param →
        res.get? d = some ⟨2005 + (d : Int), 0, 0⟩) :=
  C4_theorem [⟨2005, 100, 1⟩, ⟨2007, 200, 1⟩] [⟨2005, 300, 2⟩, ⟨2006, 50, 1⟩, ⟨2007, 200, 1⟩]
    2005 3 (by decide)

end VacancyStats
